import Mathlib

/-!
Verification development for the anonimization-tool redaction engine.

The JavaScript source is shallowly embedded: axis-aligned boxes become a
structure of four rationals, JS strings become lists of characters, JS
numbers on the geometry paths become rationals, the mutable caches become
explicit state passed through the functions, and external collaborators
(the PDF renderer, the regex engine, the OCR worker) become function
parameters.  Every definition mirrors the function of the same name in
`src/main.js`, `src/patterns.js`, `tesseract-loader.js` or the pdf.js
variant of `main.js`.
-/

/-- Axis-aligned rectangle [x0, y0, x1, y1] in page user space. -/
structure Bbox where
  x0 : ℚ
  y0 : ℚ
  x1 : ℚ
  y1 : ℚ
deriving DecidableEq, Repr

/-- The normalization invariant for a box: x0 ≤ x1 and y0 ≤ y1. -/
def Bbox.Normalized (b : Bbox) : Prop := b.x0 ≤ b.x1 ∧ b.y0 ≤ b.y1

instance (b : Bbox) : Decidable b.Normalized := by
  unfold Bbox.Normalized; infer_instance

/-- A glyph quad: four corner points (x0,y0) (x1,y1) (x2,y2) (x3,y3)
as returned by the page renderer's literal search. -/
structure Quad where
  x0 : ℚ
  y0 : ℚ
  x1 : ℚ
  y1 : ℚ
  x2 : ℚ
  y2 : ℚ
  x3 : ℚ
  y3 : ℚ
deriving DecidableEq, Repr

/-- quadToBbox from main.js: bounding rectangle of the four corners. -/
def quadToBbox (q : Quad) : Bbox :=
  { x0 := min (min (min q.x0 q.x1) q.x2) q.x3
    y0 := min (min (min q.y0 q.y1) q.y2) q.y3
    x1 := max (max (max q.x0 q.x1) q.x2) q.x3
    y1 := max (max (max q.y0 q.y1) q.y2) q.y3 }

/-- A word-level sub-region of an OCR line block. -/
structure Word where
  text : List Char
  bbox : Bbox
deriving DecidableEq, Repr

/-- A text block (an OCR line or a native text line).  `words` is empty
when no word-level geometry is available for the block. -/
structure Block where
  text : List Char
  bbox : Bbox
  words : List Word
deriving DecidableEq, Repr

/-- A match entry as stored in the match list.  Automatic matches are
pushed without the isManual flag (hence false); manual matches carry
isManual = true and the sentinel term. -/
structure MatchEntry where
  text : List Char
  term : List Char
  bbox : Bbox
  pageNum : Nat
  isManual : Bool
deriving DecidableEq, Repr

/-! ## Coordinate transform pipeline (C4) -/

/-- Forward transform of one coordinate: PDF space → display space,
as drawMatchOverlays does (× renderScale, then × displayScale). -/
def pdfToDisplayCoord (r d v : ℚ) : ℚ := v * r * d

/-- Inverse transform of one coordinate, from displayToPdfCoords:
display space → canvas space (÷ displayScale) → PDF space (÷ renderScale). -/
def displayToPdfCoord (r d v : ℚ) : ℚ := v / d / r

/-- Forward transform of a whole bbox (each corner coordinate). -/
def pdfToDisplayBbox (r d : ℚ) (b : Bbox) : Bbox :=
  { x0 := pdfToDisplayCoord r d b.x0
    y0 := pdfToDisplayCoord r d b.y0
    x1 := pdfToDisplayCoord r d b.x1
    y1 := pdfToDisplayCoord r d b.y1 }

/-- Inverse transform of a whole bbox (each corner coordinate). -/
def displayToPdfBbox (r d : ℚ) (b : Bbox) : Bbox :=
  { x0 := displayToPdfCoord r d b.x0
    y0 := displayToPdfCoord r d b.y0
    x1 := displayToPdfCoord r d b.x1
    y1 := displayToPdfCoord r d b.y1 }

/-! ## Geometry correlator: estimated and word-interpolated boxes
(estimateBbox from main.js, findMatchBbox from the pdf.js variant) -/

/-- estimateBbox: linear interpolation across the whole block, assuming
uniform character width.  charIndex and charLength are the match's
character offset and length (non-negative, hence Nat). -/
def estimateBbox (block : Block) (charIndex charLength : Nat) : Bbox :=
  if block.text.length = 0 then block.bbox
  else
    let lineWidth := block.bbox.x1 - block.bbox.x0
    let charWidth := lineWidth / (block.text.length : ℚ)
    { x0 := block.bbox.x0 + (charIndex : ℚ) * charWidth
      y0 := block.bbox.y0
      x1 := block.bbox.x0 + ((charIndex : ℚ) + (charLength : ℚ)) * charWidth
      y1 := block.bbox.y1 }

/-- The space character (the JS code compares block.text[charPos] === ' '). -/
def spaceChar : Char := Char.ofNat 32

/-- One entry of the character-to-word map: the index of the word in
block.words (modelling JS object identity), the word itself, and the
position of the character within the word. -/
structure CharWordRef where
  key : Nat
  word : Word
  pos : Nat
deriving DecidableEq, Repr

/-- Builds the charToWord array of findMatchBbox: for each word, one
entry per character of the word; a `none` entry for the single space
skipped between words when the block text has one at the current
character position. -/
def ctwAux (text : List Char) : Nat → Nat → List Word → List (Option CharWordRef)
  | _, _, [] => []
  | charPos, k, w :: rest =>
    let entries := (List.range w.text.length).map (fun i => some ⟨k, w, i⟩)
    let cp := charPos + w.text.length
    if text.get? cp = some spaceChar then
      entries ++ [none] ++ ctwAux text (cp + 1) (k + 1) rest
    else
      entries ++ ctwAux text cp (k + 1) rest

/-- The charToWord array for a block. -/
def charToWord (block : Block) : List (Option CharWordRef) :=
  ctwAux block.text 0 0 block.words

/-- A wordRanges entry: the word (with its identity key) and the first
and last character positions of the match inside that word. -/
structure WordRange where
  key : Nat
  word : Word
  startPos : Nat
  endPos : Nat
deriving DecidableEq, Repr

/-- The wordRanges map update: a fresh key is appended with
startPos = endPos = p (JS Map insertion order), an existing key has its
endPos overwritten with p. -/
def updateRange (m : List WordRange) (k : Nat) (w : Word) (p : Nat) : List WordRange :=
  match m with
  | [] => [⟨k, w, p, p⟩]
  | en :: rest =>
    if en.key = k then { en with endPos := p } :: rest
    else en :: updateRange rest k w p

/-- One step of the wordRanges construction: a null entry (a space)
maps to no word, a character entry records its position. -/
def rangeStep (m : List WordRange) (e : Option CharWordRef) : List WordRange :=
  match e with
  | none => m
  | some r => updateRange m r.key r.word r.pos

/-- Builds the wordRanges map from the slice of charToWord covered by
the match. -/
def buildRanges (slice : List (Option CharWordRef)) : List WordRange :=
  slice.foldl rangeStep []

/-- The X extent contributed by one wordRanges entry: the full word box
when the whole word is covered, otherwise linear interpolation within
the word proportional to character offsets. -/
def rangeBboxX (r : WordRange) : ℚ × ℚ :=
  let wordLen := r.word.text.length
  let wordWidth := r.word.bbox.x1 - r.word.bbox.x0
  let charWidth := wordWidth / (wordLen : ℚ)
  if r.startPos = 0 ∧ r.endPos = wordLen - 1 then
    (r.word.bbox.x0, r.word.bbox.x1)
  else
    (r.word.bbox.x0 + (r.startPos : ℚ) * charWidth,
     r.word.bbox.x0 + ((r.endPos : ℚ) + 1) * charWidth)

/-- One step of the min/max accumulation over the wordRanges entries
(the JS loop starts from ±Infinity; the `none` accumulator plays that
role, so the result is `none` exactly when the map is empty). -/
def accumStep (acc : Option Bbox) (r : WordRange) : Option Bbox :=
  let xs := rangeBboxX r
  match acc with
  | none => some ⟨xs.1, r.word.bbox.y0, xs.2, r.word.bbox.y1⟩
  | some b => some ⟨min b.x0 xs.1, min b.y0 r.word.bbox.y0,
                    max b.x1 xs.2, max b.y1 r.word.bbox.y1⟩

/-- The min/max accumulation over the wordRanges entries. -/
def accumRanges (rs : List WordRange) : Option Bbox :=
  rs.foldl accumStep none

/-- findMatchBbox from the pdf.js variant: word-level interpolation when
the block has word geometry, estimateBbox fallback otherwise (and when
no word is touched by the match's character range). -/
def findMatchBbox (block : Block) (matchText : List Char) (charIndex : Nat) : Bbox :=
  if block.words.isEmpty then estimateBbox block charIndex matchText.length
  else
    match accumRanges (buildRanges
        (((charToWord block).drop charIndex).take matchText.length)) with
    | some b => b
    | none => estimateBbox block charIndex matchText.length

/-! ## Pattern matcher (patterns.js) -/

/-- Value of a decimal digit character, as parseInt reads it. -/
def digitVal (c : Char) : Int := (c.toNat : Int) - 48

/-- bsn.padStart(9, '0'): left-pad with zeros to length 9. -/
def padStart9 (s : List Char) : List Char :=
  List.replicate (9 - s.length) '0' ++ s

/-- The weight vector of the Dutch 11-check. -/
def bsnWeights : List Int := [9, 8, 7, 6, 5, 4, 3, 2, -1]

/-- The weighted digit sum of the 11-check, as the loop in isValidBSN
computes it. -/
def bsnSum (digits : List Char) : Int :=
  (digits.zip bsnWeights).foldl (fun acc p => acc + digitVal p.1 * p.2) 0

/-- isValidBSN from patterns.js: pad to 9 digits, demand exactly nine
decimal digits, then accept when the weighted sum is divisible by 11
and the padded string is not all zeros. -/
def isValidBSN (s : List Char) : Bool :=
  let digits := padStart9 s
  if digits.length = 9 ∧ digits.all Char.isDigit then
    decide (bsnSum digits % 11 = 0) && decide (digits ≠ List.replicate 9 '0')
  else false

/-- The named pattern keys of PATTERNS in patterns.js. -/
def patternKeys : List (List Char) :=
  ["<bsn>".data, "<email>".data, "<phone>".data, "<iban>".data,
   "<date>".data, "<postcode>".data]

/-- isPattern from patterns.js. -/
def isPatternTerm (t : List Char) : Bool := patternKeys.contains t

/-- The validator attached to a term: the bsn pattern validates with
isValidBSN; every other named pattern and every plain user term has the
always-true validator. -/
def validateOf (t : List Char) : List Char → Bool :=
  if t = "<bsn>".data then isValidBSN else fun _ => true

/-! ## Pattern compilation fallback (C6)

`new RegExp(term, 'gi')` is the external regex engine; it is modelled
as a function from source and flags to `Option R` where `none` models a
thrown compile error.  The catch branch escapes all regex
metacharacters and compiles the escaped literal. -/

/-- The metacharacter class of the escaping replace:
. * + ? ^ $ open-brace close-brace ( ) | [ ] backslash. -/
def regexMetaChars : List Char :=
  ['.', '*', '+', '?', '^', '$', Char.ofNat 123, Char.ofNat 125,
   '(', ')', '|', '[', ']', Char.ofNat 92]

/-- term.replace(metacharacter-class, backslash-prefix): every
metacharacter is preceded by a backslash. -/
def escapeRegExpChars (s : List Char) : List Char :=
  s.flatMap (fun c => if c ∈ regexMetaChars then [Char.ofNat 92, c] else [c])

/-- The flags of both compilation attempts: global, case-insensitive. -/
def giFlags : List Char := ['g', 'i']

/-- The try/catch around new RegExp for a non-pattern term: compile the
term as a case-insensitive global regex; on failure compile the escaped
literal with the same flags. -/
def buildRegex {R : Type} (compile : List Char → List Char → Option R)
    (term : List Char) : Option R :=
  match compile term giFlags with
  | some r => some r
  | none => compile (escapeRegExpChars term) giFlags

/-! ## Scan pipeline (C3, C5)

The regex exec loop over a block is driven by the external regex
engine, modelled as a function execAll from term and block text to the
list of hits (matched text and character index), and the filter
`if (!validate(match[0])) continue` keeps exactly the validated hits. -/

/-- One regex hit inside a block's text. -/
structure RegexHit where
  text : List Char
  index : Nat
deriving DecidableEq, Repr

/-- The match-construction loop of the scan (pdf.js variant, PHASE 2):
for each term, for each block, every validated hit is pushed with the
word-interpolated bbox; invalid hits are skipped. -/
def searchBlocks (execAll : List Char → List Char → List RegexHit)
    (terms : List (List Char)) (blocks : List Block) (pageNum : Nat) :
    List MatchEntry :=
  terms.flatMap (fun term =>
    blocks.flatMap (fun b =>
      (execAll term b.text).filterMap (fun hit =>
        if validateOf term hit.text then
          some { text := hit.text, term := term,
                 bbox := findMatchBbox b hit.text hit.index,
                 pageNum := pageNum, isManual := false }
        else none)))

/-- The deterministic collaborators of one scan: page count, the OCR
result per page, and the regex engine. -/
structure ScanEnv where
  numPages : Nat
  ocr : Nat → List Block
  execAll : List Char → List Char → List RegexHit

/-- PHASE 1 of the scan: every page below numPages is OCRed unless
already cached, and the result is stored in the cache. -/
def ocrFill (env : ScanEnv) (cache : Nat → Option (List Block)) :
    Nat → Option (List Block) :=
  fun p => if p < env.numPages then some ((cache p).getD (env.ocr p)) else cache p

/-- PHASE 2 of the scan: pages are searched in ascending order, each
against the cached blocks. -/
def autoMatches (env : ScanEnv) (terms : List (List Char))
    (cache : Nat → Option (List Block)) : List MatchEntry :=
  (List.range env.numPages).flatMap (fun p =>
    match cache p with
    | some blocks => searchBlocks env.execAll terms blocks p
    | none => [])

/-- One click of the scan button: the match list is reset to its
isManual subset, every page is OCRed through the cache, and the
automatic matches are appended. -/
def scanStep (env : ScanEnv) (terms : List (List Char))
    (st : List MatchEntry × (Nat → Option (List Block))) :
    List MatchEntry × (Nat → Option (List Block)) :=
  let manual := st.1.filter (fun m => m.isManual)
  let cache2 := ocrFill env st.2
  (manual ++ autoMatches env terms cache2, cache2)

/-! ## Quad correlation (C2, findMatchesOnPage in main.js)

The regex hits of the block-level scan, each with its estimated bbox
and the bbox of its source block; the authoritative rectangles are the
per-text quad boxes (textToQuads is a deterministic function of the
matched text since page.search is). -/

/-- A regex hit prepared for correlation. -/
structure Hit where
  text : List Char
  estBbox : Bbox
  blockBbox : Bbox
deriving DecidableEq, Repr

/-- Distance of an authoritative rectangle's left edge from the
estimated left edge. -/
def qdist (b est : Bbox) : ℚ := |b.x0 - est.x0|

/-- Vertical overlap between a candidate rectangle and the source block
(same-line check): bbox[1] < blockBbox[3] and bbox[3] > blockBbox[1]. -/
def yOverlap (b blockBbox : Bbox) : Prop :=
  b.y0 < blockBbox.y1 ∧ b.y1 > blockBbox.y0

instance (b blockBbox : Bbox) : Decidable (yOverlap b blockBbox) := by
  unfold yOverlap; infer_instance

/-- The inner selection loop of findMatchesOnPage: iterate over the
candidate rectangles keeping the best (bestBbox, bestDist) seen so far;
used rectangles and rectangles without vertical overlap are skipped,
and a candidate replaces the best only when strictly closer
(bestDist starts at Infinity, modelled by the `none` accumulator). -/
def selectLoop (used : List Bbox) (blockBbox est : Bbox) :
    Option (Bbox × ℚ) → List Bbox → Option (Bbox × ℚ)
  | st, [] => st
  | st, b :: rest =>
    if b ∈ used then selectLoop used blockBbox est st rest
    else if yOverlap b blockBbox then
      match st with
      | none => selectLoop used blockBbox est (some (b, qdist b est)) rest
      | some (b0, d0) =>
        if qdist b est < d0 then
          selectLoop used blockBbox est (some (b, qdist b est)) rest
        else selectLoop used blockBbox est (some (b0, d0)) rest
    else selectLoop used blockBbox est st rest

/-- The rectangle selected for one hit, if any. -/
def selectBest (bboxes used : List Bbox) (blockBbox est : Bbox) : Option Bbox :=
  (selectLoop used blockBbox est none bboxes).map Prod.fst

/-- The correlation loop: hits are processed in scan order; an assigned
rectangle is added to the used set (usedBboxes keyed by the coordinate
tuple); `none` records a hit that found no qualifying rectangle. -/
def assignHits (quadsOf : List Char → List Bbox) (used : List Bbox) :
    List Hit → List (Option Bbox)
  | [] => []
  | h :: t =>
    match selectBest (quadsOf h.text) used h.blockBbox h.estBbox with
    | some b => some b :: assignHits quadsOf (b :: used) t
    | none => none :: assignHits quadsOf used t

/-- The bbox actually pushed for each hit: the assigned rectangle, or
the estimated bbox as fallback. -/
def correlate (quadsOf : List Char → List Bbox) (used : List Bbox) :
    List Hit → List Bbox
  | [] => []
  | h :: t =>
    match selectBest (quadsOf h.text) used h.blockBbox h.estBbox with
    | some b => b :: correlate quadsOf (b :: used) t
    | none => h.estBbox :: correlate quadsOf used t

/-- The used set accumulated before the i-th hit is processed. -/
def usedAt (quadsOf : List Char → List Bbox) (used : List Bbox) :
    List Hit → Nat → List Bbox
  | [], _ => used
  | _ :: _, 0 => used
  | h :: t, i + 1 =>
    match selectBest (quadsOf h.text) used h.blockBbox h.estBbox with
    | some b => usedAt quadsOf (b :: used) t i
    | none => usedAt quadsOf used t i

/-! ## Redaction burn loop (C1, processBtn handler in main.js)

The rendered pixmap is a flat byte array indexed by
y * stride + x * n + c; the burn loop floors the low edges, ceils the
high edges, clamps to the image bounds and zeroes every channel of
every covered pixel. -/

/-- pixels[i] = 0 for one index. -/
def zeroIdx (pix : Nat → Nat) (i : Nat) : Nat → Nat :=
  fun j => if j = i then 0 else pix j

/-- The three nested for loops over y, x and the channel c. -/
def burnRect (stride n xlo xhi ylo yhi : Nat) (pix : Nat → Nat) : Nat → Nat :=
  (List.range' ylo (yhi - ylo)).foldl (fun p y =>
    (List.range' xlo (xhi - xlo)).foldl (fun p2 x =>
      (List.range n).foldl (fun p3 c => zeroIdx p3 (y * stride + x * n + c)) p2) p) pix

/-- Burning one match: convert the PDF-space bbox to rendered pixels
(low edges floored, high edges ceiled, translated by the page origin),
clamp to the image, and zero the covered bytes. -/
def burnMatch (bounds : Bbox) (s : ℚ) (w h stride n : Nat) (m : Bbox)
    (pix : Nat → Nat) : Nat → Nat :=
  let x0 : Int := ⌊(m.x0 - bounds.x0) * s⌋
  let y0 : Int := ⌊(m.y0 - bounds.y0) * s⌋
  let x1 : Int := ⌈(m.x1 - bounds.x0) * s⌉
  let y1 : Int := ⌈(m.y1 - bounds.y0) * s⌉
  burnRect stride n (max 0 x0).toNat (min (w : Int) x1).toNat
    (max 0 y0).toNat (min (h : Int) y1).toNat pix

/-- The loop over the page's matches. -/
def burnMatches (bounds : Bbox) (s : ℚ) (w h stride n : Nat) (ms : List Bbox)
    (pix : Nat → Nat) : Nat → Nat :=
  ms.foldl (fun p m => burnMatch bounds s w h stride n m p) pix

/-- A pixel column x lies inside the clamped rendered rectangle of a
match. -/
def coveredX (bounds : Bbox) (s : ℚ) (w : Nat) (m : Bbox) (x : Nat) : Prop :=
  max 0 ⌊(m.x0 - bounds.x0) * s⌋ ≤ (x : Int) ∧
    (x : Int) < min (w : Int) ⌈(m.x1 - bounds.x0) * s⌉

/-- A pixel row y lies inside the clamped rendered rectangle of a
match. -/
def coveredY (bounds : Bbox) (s : ℚ) (h : Nat) (m : Bbox) (y : Nat) : Prop :=
  max 0 ⌊(m.y0 - bounds.y0) * s⌋ ≤ (y : Int) ∧
    (y : Int) < min (h : Int) ⌈(m.y1 - bounds.y0) * s⌉

/-- A pixel lies inside the clamped rendered rectangle of a match. -/
def covered (bounds : Bbox) (s : ℚ) (w h : Nat) (m : Bbox) (x y : Nat) : Prop :=
  coveredX bounds s w m x ∧ coveredY bounds s h m y

instance (bounds : Bbox) (s : ℚ) (w h : Nat) (m : Bbox) (x y : Nat) :
    Decidable (covered bounds s w h m x y) := by
  unfold covered coveredX coveredY; infer_instance

/-! ## Manual redaction (C7, handleDrawEnd) -/

/-- The sentinel text of a manual match. -/
def manualText : List Char := "[Manual Redaction]".data

/-- The sentinel term of a manual match. -/
def manualTerm : List Char := "__manual__".data

/-- The preview geometry needed by displayToPdfCoords; `none` models a
missing page record or canvas (the function then returns null). -/
structure DrawCtx where
  displayScale : ℚ
  scale : ℚ
deriving DecidableEq, Repr

/-- displayToPdfCoords: display → canvas (÷ displayScale) → PDF
(÷ scale); null when the page record or canvas is missing. -/
def displayToPdfCoordsOpt (ctx : Option DrawCtx) (x y : ℚ) : Option (ℚ × ℚ) :=
  match ctx with
  | none => none
  | some c => some (x / c.displayScale / c.scale, y / c.displayScale / c.scale)

/-- The normalized manual bbox built in handleDrawEnd from the two
converted corners (min/max on each axis). -/
def manualBbox (tl br : ℚ × ℚ) : Bbox :=
  ⟨min tl.1 br.1, min tl.2 br.2, max tl.1 br.1, max tl.2 br.2⟩

/-- addManualRedaction: push one manual match. -/
def addManualRedaction (ms : List MatchEntry) (pageNum : Nat) (bbox : Bbox) :
    List MatchEntry :=
  ms ++ [{ text := manualText, term := manualTerm, bbox := bbox,
           pageNum := pageNum, isManual := true }]

/-- handleDrawEnd: the drag rectangle (from the start point to the end
point, negative drags normalized by min/abs) is rejected below the
5 × 5 display-pixel threshold; otherwise both corners are converted to
PDF space and, when both conversions succeed, exactly one normalized
manual match is appended. -/
def handleDrawEnd (ctx : Option DrawCtx) (pageNum : Nat)
    (startX startY endX endY : ℚ) (ms : List MatchEntry) : List MatchEntry :=
  let left := min startX endX
  let top := min startY endY
  let width := |endX - startX|
  let height := |endY - startY|
  if 5 ≤ width ∧ 5 ≤ height then
    match displayToPdfCoordsOpt ctx left top,
          displayToPdfCoordsOpt ctx (left + width) (top + height) with
    | some tl, some br => addManualRedaction ms pageNum (manualBbox tl br)
    | some _, none => ms
    | none, _ => ms
  else ms

/-! ## Redaction output per page (C8, processBtn handler) -/

/-- What the redaction pass emits for one page. -/
inductive PageOutput where
  | copied
  | burned (scale : ℚ)
  | rasterFallback (scale : ℚ)
deriving DecidableEq, Repr

/-- The capped raster scale: neither dimension may exceed 4000 rendered
pixels, and the scale never exceeds 3. -/
def capScale (w h : ℚ) : ℚ := min 3 (4000 / max w h)

/-- Processing of one page: pages with matches are rasterized and
burned; pages without matches attempt the non-destructive page.run
copy and fall back, page-locally, to rasterizing at the capped scale
when the copy throws (runResult is the outcome of page.run). -/
def processPage (runResult : Except String Unit) (bounds : Bbox)
    (pageMatches : List MatchEntry) : PageOutput :=
  let w := bounds.x1 - bounds.x0
  let h := bounds.y1 - bounds.y0
  if pageMatches.length > 0 then .burned (capScale w h)
  else
    match runResult with
    | .ok _ => .copied
    | .error _ => .rasterFallback (capScale w h)

/-- The whole-document loop: every page below numPages is processed. -/
def processDoc (runResult : Nat → Except String Unit) (boundsOf : Nat → Bbox)
    (matchesByPage : Nat → List MatchEntry) (numPages : Nat) : List PageOutput :=
  (List.range numPages).map (fun p =>
    processPage (runResult p) (boundsOf p) (matchesByPage p))

/-! ## Orientation detection (C9, detectPageOrientation and the OSD
worker's detect) -/

/-- The rotateMap of the OSD worker: the orientation class 0-3 maps to
the clockwise correction 0/270/180/90; any other value (the JS lookup
is undefined, or-ed with 0) maps to 0. -/
def rotateMap (o : Int) : Int :=
  if o = 0 then 0
  else if o = 1 then 270
  else if o = 2 then 180
  else if o = 3 then 90
  else 0

/-- detect of the OSD worker: result.orientation or-ed with 0, then
rotateMap. -/
def osdDetectRotate (rawOrientation : Option Int) : Int :=
  rotateMap (rawOrientation.getD 0)

/-- pageRotations.set. -/
def cacheSet (cache : Nat → Option Int) (p : Nat) (v : Int) :
    Nat → Option Int :=
  fun q => if q = p then some v else cache q

/-- detectPageOrientation: the rotation cache is consulted first; with
no OSD worker the page defaults to 0 (cached); otherwise the detect
outcome (ok with the raw orientation field, or a thrown error) is
mapped and cached, a throw defaulting to 0. -/
def detectPageOrientation (cache : Nat → Option Int) (osdAvailable : Bool)
    (outcome : Except Unit (Option Int)) (p : Nat) :
    Int × (Nat → Option Int) :=
  match cache p with
  | some r => (r, cache)
  | none =>
    if osdAvailable then
      match outcome with
      | .ok raw =>
        let r := osdDetectRotate raw
        (r, cacheSet cache p r)
      | .error _ => (0, cacheSet cache p 0)
    else (0, cacheSet cache p 0)

/-! ## Proof-support definitions -/

/-- A candidate rectangle qualifies for a hit when it has not been
consumed and vertically overlaps the hit's source block. -/
def Qualifies (used : List Bbox) (blockBbox : Bbox) (b : Bbox) : Prop :=
  b ∉ used ∧ yOverlap b blockBbox

instance (used : List Bbox) (blockBbox b : Bbox) :
    Decidable (Qualifies used blockBbox b) := by
  unfold Qualifies; infer_instance

/-- The positions recorded in the charToWord array for one word key,
in array order. -/
def posOf (k : Nat) (l : List (Option CharWordRef)) : List Nat :=
  l.filterMap (fun e =>
    match e with
    | some r => if r.key = k then some r.pos else none
    | none => none)

/-- A concrete regex engine used to witness the compile-fallback
theorem: compilation fails exactly on sources that contain an
unescaped opening parenthesis (no backslash anywhere). -/
def parenCompile : List Char → List Char → Option (List Char) :=
  fun s _ => if '(' ∈ s ∧ Char.ofNat 92 ∉ s then none else some s

/-! # Theorems -/

/-! ## C4: coordinate round-trip -/

/-- C4: for every PDF-space bbox and positive render and display scales,
mapping forward to display space (× renderScale, × displayScale, as the
overlay drawing does) and back through displayToPdfCoords (÷ displayScale,
÷ renderScale) returns the original bbox exactly in rational arithmetic,
hence within any floating tolerance. -/
theorem display_roundtrip_exact (b : Bbox) (r d : ℚ)
    (hr : 0 < r) (hd : 0 < d) :
    displayToPdfBbox r d (pdfToDisplayBbox r d b) = b := by
  have hr0 : r ≠ 0 := ne_of_gt hr
  have hd0 : d ≠ 0 := ne_of_gt hd
  simp only [displayToPdfBbox, pdfToDisplayBbox, displayToPdfCoord,
    pdfToDisplayCoord]
  cases b with
  | mk x0 y0 x1 y1 =>
    simp only [Bbox.mk.injEq]
    refine ⟨?_, ?_, ?_, ?_⟩ <;> field_simp

/-- Witness for C4 at a concrete bbox and scales r = 3, d = 1/2. -/
theorem display_roundtrip_exact_witness :
    displayToPdfBbox 3 (1/2) (pdfToDisplayBbox 3 (1/2) ⟨5, 7, 11, 13⟩)
      = ⟨5, 7, 11, 13⟩ :=
  display_roundtrip_exact ⟨5, 7, 11, 13⟩ 3 (1/2) (by norm_num) (by norm_num)

/-! ## C9: orientation detection -/

/-- The rotateMap value is always one of the four right angles. -/
theorem rotateMap_mem (o : Int) :
    rotateMap o ∈ ([0, 90, 180, 270] : List Int) := by
  unfold rotateMap
  split_ifs <;> simp

/-- C9: orientation detection returns a value in {0, 90, 180, 270}; the
detector's class 0..3 is mapped to 0/270/180/90 and any other value to
0; the result is cached per page so a second call returns the cached
value with the cache unchanged, whatever the detector would say; and a
missing detector or a thrown detection yields rotation 0 without
failing. -/
theorem orientation_detection_spec (cache : Nat → Option Int)
    (osdAvailable : Bool) (outcome : Except Unit (Option Int)) (p : Nat)
    (hwf : ∀ q v, cache q = some v → v ∈ ([0, 90, 180, 270] : List Int)) :
    ((detectPageOrientation cache osdAvailable outcome p).1
        ∈ ([0, 90, 180, 270] : List Int))
    ∧ (∀ q v, (detectPageOrientation cache osdAvailable outcome p).2 q = some v →
        v ∈ ([0, 90, 180, 270] : List Int))
    ∧ (rotateMap 0 = 0 ∧ rotateMap 1 = 270 ∧ rotateMap 2 = 180 ∧ rotateMap 3 = 90
        ∧ ∀ o : Int, o ∉ ([0, 1, 2, 3] : List Int) → rotateMap o = 0)
    ∧ (∀ (osdAvailable2 : Bool) (outcome2 : Except Unit (Option Int)),
        detectPageOrientation
            (detectPageOrientation cache osdAvailable outcome p).2
            osdAvailable2 outcome2 p
          = ((detectPageOrientation cache osdAvailable outcome p).1,
             (detectPageOrientation cache osdAvailable outcome p).2))
    ∧ (cache p = none →
        (osdAvailable = false ∨ (∃ e, outcome = .error e)) →
        (detectPageOrientation cache osdAvailable outcome p).1 = 0) := by
  have hmap : rotateMap 0 = 0 ∧ rotateMap 1 = 270 ∧ rotateMap 2 = 180
      ∧ rotateMap 3 = 90
      ∧ ∀ o : Int, o ∉ ([0, 1, 2, 3] : List Int) → rotateMap o = 0 := by
    refine ⟨rfl, rfl, rfl, rfl, ?_⟩
    intro o ho
    simp only [List.mem_cons, List.not_mem_nil, or_false, not_or] at ho
    unfold rotateMap
    simp [ho.1, ho.2.1, ho.2.2.1, ho.2.2.2]
  cases hc : cache p with
  | some r =>
    have hr := hwf p r hc
    refine ⟨?_, ?_, hmap, ?_, ?_⟩
    · simpa [detectPageOrientation, hc] using hr
    · intro q v hv
      exact hwf q v (by simpa [detectPageOrientation, hc] using hv)
    · intro a2 o2
      simp [detectPageOrientation, hc]
    · intro habs
      simp [hc] at habs
  | none =>
    cases osdAvailable with
    | false =>
      refine ⟨?_, ?_, hmap, ?_, ?_⟩
      · simp [detectPageOrientation, hc]
      · intro q v hv
        simp only [detectPageOrientation, hc, Bool.false_eq_true, if_neg,
          cacheSet] at hv
        by_cases hq : q = p
        · simp [cacheSet, hq] at hv
          simp [← hv]
        · simp [cacheSet, hq] at hv
          exact hwf q v hv
      · intro a2 o2
        simp [detectPageOrientation, hc, cacheSet]
      · intro _ _
        simp [detectPageOrientation, hc]
    | true =>
      cases outcome with
      | ok raw =>
        refine ⟨?_, ?_, hmap, ?_, ?_⟩
        · simpa [detectPageOrientation, hc, osdDetectRotate]
            using rotateMap_mem (raw.getD 0)
        · intro q v hv
          simp only [detectPageOrientation, hc, if_pos, cacheSet] at hv
          by_cases hq : q = p
          · simp [cacheSet, hq] at hv
            simpa [← hv, osdDetectRotate] using rotateMap_mem (raw.getD 0)
          · simp [cacheSet, hq] at hv
            exact hwf q v hv
        · intro a2 o2
          simp [detectPageOrientation, hc, cacheSet]
        · rintro _ (h | ⟨e, he⟩)
          · exact absurd h (by simp)
          · exact absurd he (by simp)
      | error e =>
        refine ⟨?_, ?_, hmap, ?_, ?_⟩
        · simp [detectPageOrientation, hc]
        · intro q v hv
          simp only [detectPageOrientation, hc, if_pos, cacheSet] at hv
          by_cases hq : q = p
          · simp [cacheSet, hq] at hv
            simp [← hv]
          · simp [cacheSet, hq] at hv
            exact hwf q v hv
        · intro a2 o2
          simp [detectPageOrientation, hc, cacheSet]
        · intro _ _
          simp [detectPageOrientation, hc]

/-- Witness for C9: an empty cache, an available detector and a raw
orientation class of 1, instantiated through the theorem. -/
theorem orientation_detection_spec_witness :
    ((detectPageOrientation (fun _ => none) true (.ok (some 1)) 0).1
        ∈ ([0, 90, 180, 270] : List Int))
    ∧ (detectPageOrientation (fun _ => none) true (.ok (some 1)) 0).1 = 270 := by
  have h := orientation_detection_spec (fun _ => none) true (.ok (some 1)) 0
    (by intro q v hv; simp at hv)
  exact ⟨h.1, by simp [detectPageOrientation, osdDetectRotate, rotateMap]⟩

/-! ## C8: page-local rasterize fallback during redaction -/

/-- C8: when the non-destructive content copy (page.run) of a page with
no matches throws, the page is still produced: the failure is handled
page-locally and the page is emitted as a raster image at the capped
scale, while the document loop still yields one output per page. -/
theorem nomatch_page_fallback (runResult : Nat → Except String Unit)
    (boundsOf : Nat → Bbox) (matchesByPage : Nat → List MatchEntry)
    (numPages p : Nat) (e : String)
    (hp : p < numPages) (hm : matchesByPage p = [])
    (he : runResult p = .error e) :
    (processDoc runResult boundsOf matchesByPage numPages).length = numPages
    ∧ (processDoc runResult boundsOf matchesByPage numPages)[p]?
        = some (.rasterFallback
            (capScale ((boundsOf p).x1 - (boundsOf p).x0)
              ((boundsOf p).y1 - (boundsOf p).y0))) := by
  constructor
  · simp [processDoc]
  · simp only [processDoc, List.getElem?_map, List.getElem?_range hp,
      Option.map_some]
    simp [processPage, hm, he]

/-- Witness for C8: a one-page document whose only page has no matches
and whose content copy throws. -/
theorem nomatch_page_fallback_witness :
    (processDoc (fun _ => .error "copy failed") (fun _ => ⟨0, 0, 100, 200⟩)
        (fun _ => []) 1).length = 1
    ∧ (processDoc (fun _ => .error "copy failed") (fun _ => ⟨0, 0, 100, 200⟩)
        (fun _ => []) 1)[0]?
      = some (.rasterFallback (capScale ((100:ℚ) - 0) ((200:ℚ) - 0))) :=
  nomatch_page_fallback (fun _ => .error "copy failed")
    (fun _ => ⟨0, 0, 100, 200⟩) (fun _ => []) 1 0 "copy failed"
    (by norm_num) rfl rfl

/-! ## C7: manual redaction threshold and normalization -/

/-- C7: a drawn rectangle below 5 display pixels in either dimension is
rejected and adds no match (whatever the conversion context); a
rectangle at least 5 × 5 whose corner conversions succeed appends
exactly one match, manual, with the sentinel term and a normalized
bbox. -/
theorem manual_draw_spec (octx : Option DrawCtx) (ctx : DrawCtx)
    (pageNum : Nat) (startX startY endX endY : ℚ) (ms : List MatchEntry) :
    ((|endX - startX| < 5 ∨ |endY - startY| < 5) →
      handleDrawEnd octx pageNum startX startY endX endY ms = ms)
    ∧ (5 ≤ |endX - startX| → 5 ≤ |endY - startY| →
      ∃ m, handleDrawEnd (some ctx) pageNum startX startY endX endY ms
            = ms ++ [m]
        ∧ m.isManual = true ∧ m.term = manualTerm ∧ m.text = manualText
        ∧ m.pageNum = pageNum ∧ m.bbox.Normalized) := by
  constructor
  · intro hsmall
    unfold handleDrawEnd
    have : ¬ (5 ≤ |endX - startX| ∧ 5 ≤ |endY - startY|) := by
      rcases hsmall with h | h
      · exact fun hc => absurd hc.1 (not_le.mpr h)
      · exact fun hc => absurd hc.2 (not_le.mpr h)
    simp only [this, if_neg, not_false_eq_true]
  · intro hw hh
    unfold handleDrawEnd
    simp only [if_pos (And.intro hw hh), displayToPdfCoordsOpt]
    refine ⟨_, rfl, rfl, rfl, rfl, rfl, ?_⟩
    constructor
    · exact le_trans (min_le_left _ _) (le_max_left _ _)
    · exact le_trans (min_le_left _ _) (le_max_left _ _)

/-- Witness for C7: the 3 × 10 pixel drag of the spec is rejected, and
a 6 × 7 pixel drag appends exactly one normalized manual match. -/
theorem manual_draw_spec_witness :
    (handleDrawEnd (some ⟨1, 1⟩) 0 0 0 3 10 [] = [])
    ∧ (∃ m, handleDrawEnd (some ⟨1, 1⟩) 0 0 0 6 7 [] = [] ++ [m]
        ∧ m.isManual = true ∧ m.term = manualTerm ∧ m.text = manualText
        ∧ m.pageNum = 0 ∧ m.bbox.Normalized) :=
  ⟨(manual_draw_spec (some ⟨1, 1⟩) ⟨1, 1⟩ 0 0 0 3 10 []).1
      (Or.inl (by norm_num)),
   (manual_draw_spec (some ⟨1, 1⟩) ⟨1, 1⟩ 0 0 0 6 7 []).2
      (by norm_num) (by norm_num)⟩

/-! ## C6: user pattern compilation never fails the scan -/

/-- C6: for a term that is not a named pattern key, building the search
regex is total: the term is compiled with the global case-insensitive
flags, and when that compilation fails the escaped literal is compiled
with the same flags instead, so as long as escaped literals always
compile (a property of the external regex engine guaranteed by escaping
every metacharacter) the scan always receives a regex and no compile
error escapes. -/
theorem regex_fallback_spec {R : Type}
    (compile : List Char → List Char → Option R)
    (hescape : ∀ s, (compile (escapeRegExpChars s) giFlags).isSome = true)
    (term : List Char) :
    (buildRegex compile term).isSome = true
    ∧ (compile term giFlags = none →
        buildRegex compile term = compile (escapeRegExpChars term) giFlags) := by
  unfold buildRegex
  cases h : compile term giFlags with
  | some r => simp
  | none => exact ⟨hescape term, fun _ => rfl⟩

/-- Escaping always leaves every opening parenthesis preceded by a
backslash, so an escaped source containing a parenthesis contains a
backslash. -/
theorem escape_paren_backslash (s : List Char) :
    '(' ∈ escapeRegExpChars s → Char.ofNat 92 ∈ escapeRegExpChars s := by
  intro h
  unfold escapeRegExpChars at h ⊢
  rw [List.mem_flatMap] at h
  obtain ⟨c, hc, hmem⟩ := h
  by_cases hm : c ∈ regexMetaChars
  · rw [List.mem_flatMap]
    exact ⟨c, hc, by simp [hm]⟩
  · simp only [hm, if_neg, not_false_eq_true, List.mem_singleton] at hmem
    exact absurd hm (by rw [← hmem]; decide)

/-- Witness for C6: the invalid regular expression "(" fails to compile
under the concrete engine parenCompile, and the fallback produces the
compiled escaped literal. -/
theorem regex_fallback_spec_witness :
    (buildRegex parenCompile ['(']).isSome = true
    ∧ (parenCompile ['('] giFlags = none →
        buildRegex parenCompile ['(']
          = parenCompile (escapeRegExpChars ['(']) giFlags) :=
  regex_fallback_spec parenCompile
    (by
      intro s
      unfold parenCompile
      rw [if_neg]
      · rfl
      · rintro ⟨h1, h2⟩
        exact h2 (escape_paren_backslash s h1))
    ['(']

/-! ## C3: the BSN validator and its effect on the scan -/

/-- A list of length nine is literally nine elements. -/
theorem list_length_eq_nine {α : Type} (p : List α) (h : p.length = 9) :
    ∃ a0 a1 a2 a3 a4 a5 a6 a7 a8,
      p = [a0, a1, a2, a3, a4, a5, a6, a7, a8] := by
  rcases p with _ | ⟨a0, _ | ⟨a1, _ | ⟨a2, _ | ⟨a3, _ | ⟨a4, _ | ⟨a5, _ | ⟨a6,
    _ | ⟨a7, _ | ⟨a8, _ | ⟨a9, t⟩⟩⟩⟩⟩⟩⟩⟩⟩⟩ <;>
    simp only [List.length_cons, List.length_nil] at h
  all_goals first
    | omega
    | exact ⟨a0, a1, a2, a3, a4, a5, a6, a7, a8, rfl⟩

/-- C3: for every string of 8 or 9 decimal digits, the BSN validator
accepts iff, after left-padding with zeros to 9 digits, the weighted
sum d0·9 + d1·8 + d2·7 + d3·6 + d4·5 + d5·4 + d6·3 + d7·2 + d8·(−1) is
divisible by 11 and the padded string is not all zeros; and during a
scan with the bsn pattern a candidate hit appears in the match list iff
the validator accepts it (rejected candidates are silently dropped). -/
theorem bsn_validator_spec :
    (∀ s : List Char, (s.length = 8 ∨ s.length = 9) →
      s.all Char.isDigit = true →
      (isValidBSN s = true ↔
        (11 ∣ (digitVal ((padStart9 s).getD 0 '0') * 9
              + digitVal ((padStart9 s).getD 1 '0') * 8
              + digitVal ((padStart9 s).getD 2 '0') * 7
              + digitVal ((padStart9 s).getD 3 '0') * 6
              + digitVal ((padStart9 s).getD 4 '0') * 5
              + digitVal ((padStart9 s).getD 5 '0') * 4
              + digitVal ((padStart9 s).getD 6 '0') * 3
              + digitVal ((padStart9 s).getD 7 '0') * 2
              + digitVal ((padStart9 s).getD 8 '0') * (-1))
          ∧ padStart9 s ≠ List.replicate 9 '0')))
    ∧ (∀ (execAll : List Char → List Char → List RegexHit)
        (blocks : List Block) (pageNum : Nat) (m : MatchEntry),
        m ∈ searchBlocks execAll ["<bsn>".data] blocks pageNum ↔
          ∃ b ∈ blocks, ∃ hit ∈ execAll "<bsn>".data b.text,
            isValidBSN hit.text = true ∧
            m = { text := hit.text, term := "<bsn>".data,
                  bbox := findMatchBbox b hit.text hit.index,
                  pageNum := pageNum, isManual := false }) := by
  constructor
  · intro s hlen hdig
    have hslen : s.length ≤ 9 := by rcases hlen with h | h <;> omega
    have hplen : (padStart9 s).length = 9 := by
      unfold padStart9
      rw [List.length_append, List.length_replicate]
      omega
    have hpdig : (padStart9 s).all Char.isDigit = true := by
      unfold padStart9
      rw [List.all_append, Bool.and_eq_true]
      refine ⟨?_, hdig⟩
      rw [List.all_eq_true]
      intro c hcmem
      rw [List.eq_of_mem_replicate hcmem]
      decide
    obtain ⟨a0, a1, a2, a3, a4, a5, a6, a7, a8, hp⟩ :=
      list_length_eq_nine _ hplen
    rw [hp] at hpdig
    unfold isValidBSN
    rw [hp]
    rw [if_pos (And.intro (by simp) hpdig)]
    rw [Bool.and_eq_true, decide_eq_true_eq, decide_eq_true_eq]
    simp only [bsnSum, bsnWeights, List.zip_cons_cons, List.zip_nil_right,
      List.foldl_cons, List.foldl_nil, List.getD_cons_zero,
      List.getD_cons_succ]
    constructor
    · rintro ⟨h1, h2⟩
      exact ⟨by omega, h2⟩
    · rintro ⟨h1, h2⟩
      exact ⟨by omega, h2⟩
  · intro execAll blocks pageNum m
    unfold searchBlocks
    simp only [List.flatMap_cons, List.flatMap_nil, List.append_nil,
      List.mem_flatMap, List.mem_filterMap]
    constructor
    · rintro ⟨b, hb, hit, hhit, hf⟩
      by_cases hv : validateOf "<bsn>".data hit.text = true
      · rw [if_pos hv] at hf
        have hvb : isValidBSN hit.text = true := by
          simpa [validateOf] using hv
        injection hf with hf
        exact ⟨b, hb, hit, hhit, hvb, hf.symm⟩
      · rw [if_neg hv] at hf
        cases hf
    · rintro ⟨b, hb, hit, hhit, hval, rfl⟩
      refine ⟨b, hb, hit, hhit, ?_⟩
      rw [if_pos (by simpa [validateOf] using hval)]

/-- Witness for C3: 111222333 passes the 11-check and is accepted; the
all-zero shape match is rejected. -/
theorem bsn_validator_spec_witness :
    isValidBSN "111222333".data = true
    ∧ isValidBSN "000000000".data = false := by
  constructor
  · exact (bsn_validator_spec.1 "111222333".data (Or.inr (by decide))
      (by decide)).mpr ⟨by decide, by decide⟩
  · decide

/-! ## C5: re-scan idempotence and manual-match preservation -/

/-- Every match pushed by the search loop is automatic. -/
theorem searchBlocks_isManual_false (ex : List Char → List Char → List RegexHit)
    (terms : List (List Char)) (blocks : List Block) (p : Nat) :
    ∀ m ∈ searchBlocks ex terms blocks p, m.isManual = false := by
  intro m hm
  unfold searchBlocks at hm
  rw [List.mem_flatMap] at hm
  obtain ⟨t, _, hm⟩ := hm
  rw [List.mem_flatMap] at hm
  obtain ⟨b, _, hm⟩ := hm
  rw [List.mem_filterMap] at hm
  obtain ⟨hit, _, hf⟩ := hm
  by_cases hv : validateOf t hit.text = true
  · rw [if_pos hv] at hf
    injection hf with hf
    rw [← hf]
  · rw [if_neg hv] at hf
    cases hf

/-- Every automatic match of one scan is non-manual. -/
theorem autoMatches_isManual_false (env : ScanEnv) (terms : List (List Char))
    (c : Nat → Option (List Block)) :
    ∀ m ∈ autoMatches env terms c, m.isManual = false := by
  intro m hm
  unfold autoMatches at hm
  rw [List.mem_flatMap] at hm
  obtain ⟨p, _, hm⟩ := hm
  rcases hcp : c p with _ | blocks
  · rw [hcp] at hm
    cases hm
  · rw [hcp] at hm
    exact searchBlocks_isManual_false env.execAll terms blocks p m hm

/-- Filling an already filled cache changes nothing. -/
theorem ocrFill_idem (env : ScanEnv) (c : Nat → Option (List Block)) :
    ocrFill env (ocrFill env c) = ocrFill env c := by
  funext p
  unfold ocrFill
  by_cases hp : p < env.numPages <;> simp [hp]

/-- C5: re-scanning with the document and term set unchanged reproduces
exactly the same match list: the same automatic matches in the same
order with the same values, with every manual match still present and
unchanged; each scan resets the list to its isManual subset and appends
only automatic (non-manual) matches. -/
theorem scan_idempotent (env : ScanEnv) (terms : List (List Char))
    (st : List MatchEntry × (Nat → Option (List Block))) :
    ((scanStep env terms (scanStep env terms st)).1
        = (scanStep env terms st).1)
    ∧ ((scanStep env terms (scanStep env terms st)).1.filter
          (fun m => m.isManual)
        = (scanStep env terms st).1.filter (fun m => m.isManual))
    ∧ ((scanStep env terms st).1
        = st.1.filter (fun m => m.isManual)
            ++ autoMatches env terms (ocrFill env st.2))
    ∧ (∀ m ∈ autoMatches env terms (ocrFill env st.2),
        m.isManual = false) := by
  have hauto := autoMatches_isManual_false env terms (ocrFill env st.2)
  have hfm : (st.1.filter (fun m => m.isManual)).filter (fun m => m.isManual)
      = st.1.filter (fun m => m.isManual) := by
    rw [List.filter_filter]
    simp
  have hfa : (autoMatches env terms (ocrFill env st.2)).filter
      (fun m => m.isManual) = [] := by
    rw [List.filter_eq_nil_iff]
    intro a ha
    simp [hauto a ha]
  have h1 : (scanStep env terms (scanStep env terms st)).1
      = (scanStep env terms st).1 := by
    simp only [scanStep]
    rw [List.filter_append, hfm, hfa, List.append_nil, ocrFill_idem]
  exact ⟨h1, by rw [h1], rfl, hauto⟩

/-! ## C2: quad correlation -/

/-- Once the selection loop holds a best candidate it never returns to
the empty state. -/
theorem selectLoop_some_st :
    ∀ (l : List Bbox) (used : List Bbox) (blockBbox est : Bbox)
      (b0 : Bbox) (d0 : ℚ),
      ∃ b d, selectLoop used blockBbox est (some (b0, d0)) l = some (b, d) := by
  intro l
  induction l with
  | nil => exact fun used bb est b0 d0 => ⟨b0, d0, rfl⟩
  | cons hd tl ih =>
    intro used bb est b0 d0
    simp only [selectLoop]
    by_cases h1 : hd ∈ used
    · rw [if_pos h1]
      exact ih used bb est b0 d0
    · rw [if_neg h1]
      by_cases h2 : yOverlap hd bb
      · rw [if_pos h2]
        by_cases h3 : qdist hd est < d0
        · rw [if_pos h3]
          exact ih used bb est hd (qdist hd est)
        · rw [if_neg h3]
          exact ih used bb est b0 d0
      · rw [if_neg h2]
        exact ih used bb est b0 d0

/-- Full characterization of a successful selection-loop run: the
reported distance is the distance of the reported rectangle, the
rectangle is the inherited candidate or a qualifying member of the
list, and its distance is minimal among the inherited candidate and
every qualifying rectangle of the list. -/
theorem selectLoop_some_spec (used : List Bbox) (blockBbox est : Bbox) :
    ∀ (l : List Bbox) (st : Option (Bbox × ℚ)),
      (∀ b0 d0, st = some (b0, d0) → d0 = qdist b0 est) →
      ∀ b d, selectLoop used blockBbox est st l = some (b, d) →
        d = qdist b est
        ∧ (st = some (b, d) ∨ (b ∈ l ∧ Qualifies used blockBbox b))
        ∧ (∀ b0 d0, st = some (b0, d0) → d ≤ d0)
        ∧ (∀ q ∈ l, Qualifies used blockBbox q → d ≤ qdist q est) := by
  intro l
  induction l with
  | nil =>
    intro st hst b d hres
    simp only [selectLoop] at hres
    refine ⟨hst b d hres, Or.inl hres, ?_, ?_⟩
    · intro b0 d0 h0
      rw [hres, Option.some.injEq, Prod.mk.injEq] at h0
      exact le_of_eq h0.2
    · intro q hq
      exact absurd hq (List.not_mem_nil q)
  | cons hd tl ih =>
    intro st hst b d hres
    by_cases h1 : hd ∈ used
    · simp only [selectLoop, h1, if_true] at hres
      obtain ⟨hdq, hdisj, hle, hmin⟩ := ih st hst b d hres
      refine ⟨hdq, ?_, hle, ?_⟩
      · rcases hdisj with h | ⟨hmem, hq⟩
        · exact Or.inl h
        · exact Or.inr ⟨List.mem_cons_of_mem _ hmem, hq⟩
      · intro q hq hqual
        rcases List.mem_cons.mp hq with rfl | hq2
        · exact absurd h1 hqual.1
        · exact hmin q hq2 hqual
    · by_cases h2 : yOverlap hd blockBbox
      · cases st with
        | none =>
          simp only [selectLoop, h1, h2, if_true, if_false] at hres
          obtain ⟨hdq, hdisj, hle, hmin⟩ := ih (some (hd, qdist hd est))
            (by
              intro b0 d0 h0
              rw [Option.some.injEq, Prod.mk.injEq] at h0
              rw [← h0.2, ← h0.1])
            b d hres
          refine ⟨hdq, ?_, ?_, ?_⟩
          · rcases hdisj with h | ⟨hmem, hq⟩
            · rw [Option.some.injEq, Prod.mk.injEq] at h
              exact Or.inr ⟨h.1 ▸ List.mem_cons_self _ _, h.1 ▸ ⟨h1, h2⟩⟩
            · exact Or.inr ⟨List.mem_cons_of_mem _ hmem, hq⟩
          · intro b0 d0 h0
            cases h0
          · intro q hq hqual
            rcases List.mem_cons.mp hq with rfl | hq2
            · exact hle q (qdist q est) rfl
            · exact hmin q hq2 hqual
        | some pair =>
          obtain ⟨b0, d0⟩ := pair
          have hd0 : d0 = qdist b0 est := hst b0 d0 rfl
          by_cases h3 : qdist hd est < d0
          · simp only [selectLoop, h1, h2, h3, if_true, if_false] at hres
            obtain ⟨hdq, hdisj, hle, hmin⟩ := ih (some (hd, qdist hd est))
              (by
                intro b1 d1 h0
                rw [Option.some.injEq, Prod.mk.injEq] at h0
                rw [← h0.2, ← h0.1])
              b d hres
            refine ⟨hdq, ?_, ?_, ?_⟩
            · rcases hdisj with h | ⟨hmem, hq⟩
              · rw [Option.some.injEq, Prod.mk.injEq] at h
                exact Or.inr ⟨h.1 ▸ List.mem_cons_self _ _, h.1 ▸ ⟨h1, h2⟩⟩
              · exact Or.inr ⟨List.mem_cons_of_mem _ hmem, hq⟩
            · intro b1 d1 h0
              rw [Option.some.injEq, Prod.mk.injEq] at h0
              have hdle : d ≤ qdist hd est := hle hd (qdist hd est) rfl
              exact le_of_lt (lt_of_le_of_lt hdle (h0.2 ▸ h3))
            · intro q hq hqual
              rcases List.mem_cons.mp hq with rfl | hq2
              · exact hle q (qdist q est) rfl
              · exact hmin q hq2 hqual
          · simp only [selectLoop, h1, h2, h3, if_true, if_false] at hres
            obtain ⟨hdq, hdisj, hle, hmin⟩ := ih (some (b0, d0))
              (by
                intro b1 d1 h0
                rw [Option.some.injEq, Prod.mk.injEq] at h0
                rw [← h0.2, ← h0.1]
                exact hd0)
              b d hres
            refine ⟨hdq, ?_, ?_, ?_⟩
            · rcases hdisj with h | ⟨hmem, hq⟩
              · exact Or.inl h
              · exact Or.inr ⟨List.mem_cons_of_mem _ hmem, hq⟩
            · intro b1 d1 h0
              rw [Option.some.injEq, Prod.mk.injEq] at h0
              exact h0.2 ▸ hle b0 d0 rfl
            · intro q hq hqual
              rcases List.mem_cons.mp hq with rfl | hq2
              · exact le_trans (hle b0 d0 rfl) (not_lt.mp h3)
              · exact hmin q hq2 hqual
      · simp only [selectLoop, h1, h2, if_true, if_false] at hres
        obtain ⟨hdq, hdisj, hle, hmin⟩ := ih st hst b d hres
        refine ⟨hdq, ?_, hle, ?_⟩
        · rcases hdisj with h | ⟨hmem, hq⟩
          · exact Or.inl h
          · exact Or.inr ⟨List.mem_cons_of_mem _ hmem, hq⟩
        · intro q hq hqual
          rcases List.mem_cons.mp hq with rfl | hq2
          · exact absurd hqual.2 h2
          · exact hmin q hq2 hqual

/-- The selection loop reports nothing exactly when it started with
nothing and no rectangle of the list qualifies. -/
theorem selectLoop_none_iff (used : List Bbox) (blockBbox est : Bbox) :
    ∀ (l : List Bbox) (st : Option (Bbox × ℚ)),
      (selectLoop used blockBbox est st l = none ↔
        st = none ∧ ∀ q ∈ l, ¬ Qualifies used blockBbox q) := by
  intro l
  induction l with
  | nil =>
    intro st
    simp [selectLoop]
  | cons hd tl ih =>
    intro st
    by_cases h1 : hd ∈ used
    · simp only [selectLoop, h1, if_true]
      rw [ih]
      constructor
      · rintro ⟨h, hall⟩
        refine ⟨h, ?_⟩
        intro q hq
        rcases List.mem_cons.mp hq with rfl | hq2
        · exact fun hc => hc.1 h1
        · exact hall q hq2
      · rintro ⟨h, hall⟩
        exact ⟨h, fun q hq => hall q (List.mem_cons_of_mem _ hq)⟩
    · by_cases h2 : yOverlap hd blockBbox
      · cases st with
        | none =>
          simp only [selectLoop, h1, h2, if_true, if_false]
          constructor
          · intro hres
            obtain ⟨b, d, hsome⟩ :=
              selectLoop_some_st tl used blockBbox est hd (qdist hd est)
            rw [hsome] at hres
            cases hres
          · rintro ⟨_, hall⟩
            exact absurd ⟨h1, h2⟩ (hall hd (List.mem_cons_self _ _))
        | some pair =>
          obtain ⟨b0, d0⟩ := pair
          by_cases h3 : qdist hd est < d0
          · simp only [selectLoop, h1, h2, h3, if_true, if_false]
            constructor
            · intro hres
              obtain ⟨b, d, hsome⟩ :=
                selectLoop_some_st tl used blockBbox est hd (qdist hd est)
              rw [hsome] at hres
              cases hres
            · rintro ⟨h, _⟩
              cases h
          · simp only [selectLoop, h1, h2, h3, if_true, if_false]
            constructor
            · intro hres
              obtain ⟨b, d, hsome⟩ :=
                selectLoop_some_st tl used blockBbox est b0 d0
              rw [hsome] at hres
              cases hres
            · rintro ⟨h, _⟩
              cases h
      · simp only [selectLoop, h1, h2, if_true, if_false]
        rw [ih]
        constructor
        · rintro ⟨h, hall⟩
          refine ⟨h, ?_⟩
          intro q hq
          rcases List.mem_cons.mp hq with rfl | hq2
          · exact fun hc => h2 hc.2
          · exact hall q hq2
        · rintro ⟨h, hall⟩
          exact ⟨h, fun q hq => hall q (List.mem_cons_of_mem _ hq)⟩

/-- A selected rectangle is a qualifying member of the candidate list
with minimal left-edge distance among the qualifying rectangles. -/
theorem selectBest_some_spec (bboxes used : List Bbox) (blockBbox est b : Bbox) :
    selectBest bboxes used blockBbox est = some b →
      b ∈ bboxes ∧ Qualifies used blockBbox b
      ∧ ∀ q ∈ bboxes, Qualifies used blockBbox q →
          qdist b est ≤ qdist q est := by
  intro h
  unfold selectBest at h
  cases hres : selectLoop used blockBbox est none bboxes with
  | none =>
    rw [hres] at h
    cases h
  | some pair =>
    obtain ⟨b', d⟩ := pair
    rw [hres] at h
    have hb : b' = b := by simpa using h
    subst hb
    obtain ⟨hdq, hdisj, _, hmin⟩ := selectLoop_some_spec used blockBbox est
      bboxes none (by intro _ _ h0; cases h0) b' d hres
    rcases hdisj with h0 | ⟨hmem, hq⟩
    · cases h0
    · refine ⟨hmem, hq, ?_⟩
      intro q hq2 hq3
      rw [← hdq]
      exact hmin q hq2 hq3

/-- No rectangle is selected exactly when none qualifies. -/
theorem selectBest_none_spec (bboxes used : List Bbox) (blockBbox est : Bbox) :
    selectBest bboxes used blockBbox est = none ↔
      ∀ q ∈ bboxes, ¬ Qualifies used blockBbox q := by
  unfold selectBest
  rw [Option.map_eq_none']
  rw [selectLoop_none_iff used blockBbox est bboxes none]
  exact ⟨fun h => h.2, fun h => ⟨rfl, h⟩⟩

/-- The correlation loop yields one entry per hit. -/
theorem assignHits_length (quadsOf : List Char → List Bbox) :
    ∀ (hits : List Hit) (used : List Bbox),
      (assignHits quadsOf used hits).length = hits.length := by
  intro hits
  induction hits with
  | nil => intro used; rfl
  | cons hd tl ih =>
    intro used
    simp only [assignHits]
    cases hsel : selectBest (quadsOf hd.text) used hd.blockBbox hd.estBbox <;>
      simp [ih]

/-- Entry i of the correlation loop is the selection for hit i against
the used set accumulated over the earlier hits. -/
theorem assignHits_getElem? (quadsOf : List Char → List Bbox) :
    ∀ (hits : List Hit) (used : List Bbox) (i : Nat) (h : Hit),
      hits[i]? = some h →
      (assignHits quadsOf used hits)[i]? =
        some (selectBest (quadsOf h.text) (usedAt quadsOf used hits i)
          h.blockBbox h.estBbox) := by
  intro hits
  induction hits with
  | nil =>
    intro used i h hh
    simp at hh
  | cons hd tl ih =>
    intro used i h hh
    cases i with
    | zero =>
      rw [List.getElem?_cons_zero, Option.some.injEq] at hh
      subst hh
      simp only [assignHits, usedAt]
      cases hsel : selectBest (quadsOf hd.text) used hd.blockBbox hd.estBbox <;>
        simp [hsel]
    | succ i =>
      rw [List.getElem?_cons_succ] at hh
      simp only [assignHits, usedAt]
      cases hsel : selectBest (quadsOf hd.text) used hd.blockBbox hd.estBbox <;>
        simp only [hsel] <;> rw [List.getElem?_cons_succ] <;>
        exact ih _ _ _ hh

/-- Entry i of the pushed boxes is the selected rectangle with the
estimated bbox as fallback. -/
theorem correlate_getElem? (quadsOf : List Char → List Bbox) :
    ∀ (hits : List Hit) (used : List Bbox) (i : Nat) (h : Hit),
      hits[i]? = some h →
      (correlate quadsOf used hits)[i]? =
        some (Option.getD
          (selectBest (quadsOf h.text) (usedAt quadsOf used hits i)
            h.blockBbox h.estBbox) h.estBbox) := by
  intro hits
  induction hits with
  | nil =>
    intro used i h hh
    simp at hh
  | cons hd tl ih =>
    intro used i h hh
    cases i with
    | zero =>
      rw [List.getElem?_cons_zero, Option.some.injEq] at hh
      subst hh
      simp only [correlate, usedAt]
      cases hsel : selectBest (quadsOf hd.text) used hd.blockBbox hd.estBbox <;>
        simp [hsel]
    | succ i =>
      rw [List.getElem?_cons_succ] at hh
      simp only [correlate, usedAt]
      cases hsel : selectBest (quadsOf hd.text) used hd.blockBbox hd.estBbox <;>
        simp only [hsel] <;> rw [List.getElem?_cons_succ] <;>
        exact ih _ _ _ hh

/-- The rectangles assigned by the correlation loop are pairwise
distinct coordinate tuples and none of them was in the incoming used
set. -/
theorem assignHits_nodup (quadsOf : List Char → List Bbox) :
    ∀ (hits : List Hit) (used : List Bbox),
      ((assignHits quadsOf used hits).filterMap id).Nodup
      ∧ ∀ b ∈ (assignHits quadsOf used hits).filterMap id, b ∉ used := by
  intro hits
  induction hits with
  | nil =>
    intro used
    constructor
    · simp [assignHits]
    · simp [assignHits]
  | cons hd tl ih =>
    intro used
    simp only [assignHits]
    cases hsel : selectBest (quadsOf hd.text) used hd.blockBbox hd.estBbox with
    | none =>
      simp only [List.filterMap_cons, id]
      exact ih used
    | some b =>
      have hq := selectBest_some_spec _ _ _ _ _ hsel
      obtain ⟨ihn, ihu⟩ := ih (b :: used)
      simp only [List.filterMap_cons, id]
      constructor
      · rw [List.nodup_cons]
        refine ⟨?_, ihn⟩
        intro hmem
        exact (ihu b hmem) (List.mem_cons_self _ _)
      · intro x hx
        rcases List.mem_cons.mp hx with rfl | hx2
        · exact hq.2.1.1
        · intro hxu
          exact (ihu x hx2) (List.mem_cons_of_mem _ hxu)

/-- C2: in the native-text correlation path, the hit at position i is
assigned a rectangle from the quads of its text that is not already
consumed by an earlier hit, vertically overlaps the hit's source block,
and minimizes the left-edge distance to the estimated bbox among the
rectangles that so qualify; when no rectangle qualifies the pushed box
is the estimated bbox.  No coordinate tuple is assigned to two
different hits, and the correlator, a pure function of its inputs, is
deterministic. -/
theorem correlator_spec (quadsOf : List Char → List Bbox) (hits : List Hit)
    (i : Nat) (h : Hit) (hi : hits[i]? = some h) :
    ((assignHits quadsOf [] hits).length = hits.length)
    ∧ (((assignHits quadsOf [] hits).filterMap id).Nodup)
    ∧ (assignHits quadsOf [] hits = assignHits quadsOf [] hits
        ∧ correlate quadsOf [] hits = correlate quadsOf [] hits)
    ∧ (∀ b, (assignHits quadsOf [] hits)[i]? = some (some b) →
        b ∈ quadsOf h.text ∧ b ∉ usedAt quadsOf [] hits i
        ∧ yOverlap b h.blockBbox
        ∧ ∀ q ∈ quadsOf h.text, q ∉ usedAt quadsOf [] hits i →
            yOverlap q h.blockBbox →
            qdist b h.estBbox ≤ qdist q h.estBbox)
    ∧ ((assignHits quadsOf [] hits)[i]? = some none →
        ((correlate quadsOf [] hits)[i]? = some h.estBbox
          ∧ ∀ q ∈ quadsOf h.text, q ∈ usedAt quadsOf [] hits i
              ∨ ¬ yOverlap q h.blockBbox)) := by
  refine ⟨assignHits_length quadsOf hits [],
    (assignHits_nodup quadsOf hits []).1, ⟨rfl, rfl⟩, ?_, ?_⟩
  · intro b hb
    rw [assignHits_getElem? quadsOf hits [] i h hi, Option.some.injEq] at hb
    have hspec := selectBest_some_spec _ _ _ _ _ hb
    exact ⟨hspec.1, hspec.2.1.1, hspec.2.1.2,
      fun q hq h1 h2 => hspec.2.2 q hq ⟨h1, h2⟩⟩
  · intro hnone
    rw [assignHits_getElem? quadsOf hits [] i h hi, Option.some.injEq] at hnone
    constructor
    · rw [correlate_getElem? quadsOf hits [] i h hi, hnone]
      rfl
    · intro q hq
      have hnq := (selectBest_none_spec _ _ _ _).mp hnone q hq
      by_cases hu : q ∈ usedAt quadsOf [] hits i
      · exact Or.inl hu
      · exact Or.inr (fun hov => hnq ⟨hu, hov⟩)

/-- Witness for C2 on a one-hit, one-rectangle instance. -/
theorem correlator_spec_witness :
    (assignHits (fun _ => [⟨0, 0, 1, 1⟩]) []
        [⟨['a'], ⟨0, 0, 1, 1⟩, ⟨0, 0, 1, 1⟩⟩]).length
      = ([⟨['a'], ⟨0, 0, 1, 1⟩, ⟨0, 0, 1, 1⟩⟩] : List Hit).length :=
  (correlator_spec (fun _ => [⟨0, 0, 1, 1⟩])
    [⟨['a'], ⟨0, 0, 1, 1⟩, ⟨0, 0, 1, 1⟩⟩] 0
    ⟨['a'], ⟨0, 0, 1, 1⟩, ⟨0, 0, 1, 1⟩⟩ (by simp)).1

/-- Witness for C5 at a concrete one-page environment. -/
theorem scan_idempotent_witness :
    (scanStep ⟨1, fun _ => [], fun _ _ => []⟩ []
        (scanStep ⟨1, fun _ => [], fun _ _ => []⟩ [] ([], fun _ => none))).1
      = (scanStep ⟨1, fun _ => [], fun _ _ => []⟩ [] ([], fun _ => none)).1 :=
  (scan_idempotent ⟨1, fun _ => [], fun _ _ => []⟩ [] ([], fun _ => none)).1

/-! ## C1: the redaction burn loop -/

/-- Value of a pixel buffer after a sequence of zero-writes. -/
theorem foldl_zeroIdx :
    ∀ (l : List Nat) (pix : Nat → Nat) (j : Nat),
      (l.foldl zeroIdx pix) j = if j ∈ l then 0 else pix j := by
  intro l
  induction l with
  | nil => intro pix j; simp
  | cons a t ih =>
    intro pix j
    rw [List.foldl_cons, ih]
    by_cases hj : j ∈ t
    · simp [hj]
    · by_cases hja : j = a
      · simp [hj, hja, zeroIdx]
      · simp [hj, hja, zeroIdx]

/-- A fold of inner zero-write folds is the zero-write fold of the
flattened index list. -/
theorem foldl_flatMap_zeroIdx {α : Type} (g : α → List Nat) :
    ∀ (ls : List α) (pix : Nat → Nat),
      ls.foldl (fun p a => (g a).foldl zeroIdx p) pix
        = (ls.flatMap g).foldl zeroIdx pix := by
  intro ls
  induction ls with
  | nil => intro pix; rfl
  | cons a t ih =>
    intro pix
    rw [List.foldl_cons, ih, List.flatMap_cons, List.foldl_append]

/-- The nested burn loops zero exactly the bytes of the covered index
set and leave every other byte unchanged. -/
theorem burnRect_apply (stride n xlo xhi ylo yhi : Nat) (pix : Nat → Nat)
    (j : Nat) :
    burnRect stride n xlo xhi ylo yhi pix j =
      if ∃ y ∈ List.range' ylo (yhi - ylo), ∃ x ∈ List.range' xlo (xhi - xlo),
          ∃ c ∈ List.range n, y * stride + x * n + c = j
      then 0 else pix j := by
  unfold burnRect
  have hinner : ∀ (y : Nat) (p : Nat → Nat),
      (List.range' xlo (xhi - xlo)).foldl (fun p2 x =>
        (List.range n).foldl
          (fun p3 c => zeroIdx p3 (y * stride + x * n + c)) p2) p
      = ((List.range' xlo (xhi - xlo)).flatMap (fun x =>
          (List.range n).map (fun c => y * stride + x * n + c))).foldl
            zeroIdx p := by
    intro y p
    rw [← foldl_flatMap_zeroIdx]
    congr 1
    funext p2 x
    rw [List.foldl_map]
  simp only [hinner]
  rw [foldl_flatMap_zeroIdx]
  rw [foldl_zeroIdx]
  refine if_congr ?_ rfl rfl
  simp only [List.mem_flatMap, List.mem_map, List.mem_range]

/-- Uniqueness of the (row, column, channel) decomposition of a byte
index when the stride is width times the component count. -/
theorem pixel_index_decomp (w n y x c y' x' c' : Nat) (hx : x < w)
    (hx' : x' < w) (hc : c < n) (hc' : c' < n)
    (he : y' * (w * n) + x' * n + c' = y * (w * n) + x * n + c) :
    y' = y ∧ x' = x ∧ c' = c := by
  have hn : 0 < n := by omega
  have hw : 0 < w := by omega
  have h1 : (y' * w + x') * n + c' = (y * w + x) * n + c := by
    rw [Nat.add_mul, Nat.add_mul, Nat.mul_assoc, Nat.mul_assoc]
    exact he
  have hcc : c' = c := by
    have e1 : ((y' * w + x') * n + c') % n = c' % n := by
      rw [Nat.add_comm, Nat.add_mul_mod_self_right]
    have e2 : ((y * w + x) * n + c) % n = c % n := by
      rw [Nat.add_comm, Nat.add_mul_mod_self_right]
    have := congrArg (· % n) h1
    simp only [e1, e2] at this
    rw [Nat.mod_eq_of_lt hc', Nat.mod_eq_of_lt hc] at this
    exact this
  subst hcc
  have h2 : (y' * w + x') * n = (y * w + x) * n := by omega
  have h3 : y' * w + x' = y * w + x := Nat.eq_of_mul_eq_mul_right hn h2
  have hxx : x' = x := by
    have e1 : (y' * w + x') % w = x' % w := by
      rw [Nat.add_comm, Nat.add_mul_mod_self_right]
    have e2 : (y * w + x) % w = x % w := by
      rw [Nat.add_comm, Nat.add_mul_mod_self_right]
    have := congrArg (· % w) h3
    simp only [e1, e2] at this
    rw [Nat.mod_eq_of_lt hx', Nat.mod_eq_of_lt hx] at this
    exact this
  subst hxx
  have h4 : y' * w = y * w := by omega
  exact ⟨Nat.eq_of_mul_eq_mul_right hw h4, rfl, rfl⟩

/-- Burning one match either zeroes a byte or leaves it unchanged. -/
theorem burnMatch_cases (bounds : Bbox) (s : ℚ) (w h stride n : Nat)
    (m : Bbox) (pix : Nat → Nat) (j : Nat) :
    burnMatch bounds s w h stride n m pix j = 0
    ∨ burnMatch bounds s w h stride n m pix j = pix j := by
  simp only [burnMatch]
  rw [burnRect_apply]
  by_cases hcond : ∃ y ∈ List.range' (max 0 ⌊(m.y0 - bounds.y0) * s⌋).toNat
      ((min (h : Int) ⌈(m.y1 - bounds.y0) * s⌉).toNat
        - (max 0 ⌊(m.y0 - bounds.y0) * s⌋).toNat),
      ∃ x ∈ List.range' (max 0 ⌊(m.x0 - bounds.x0) * s⌋).toNat
        ((min (w : Int) ⌈(m.x1 - bounds.x0) * s⌉).toNat
          - (max 0 ⌊(m.x0 - bounds.x0) * s⌋).toNat),
      ∃ c ∈ List.range n, y * stride + x * n + c = j
  · rw [if_pos hcond]
    exact Or.inl rfl
  · rw [if_neg hcond]
    exact Or.inr rfl

/-- Burning one match at the byte of pixel (x, y), channel c: the byte
becomes zero when the pixel is covered by the match's clamped rendered
rectangle and is unchanged otherwise. -/
theorem burnMatch_apply (bounds : Bbox) (s : ℚ) (w h n : Nat) (m : Bbox)
    (pix : Nat → Nat) (x y c : Nat) (hx : x < w) (hy : y < h) (hc : c < n) :
    burnMatch bounds s w h (w * n) n m pix (y * (w * n) + x * n + c)
      = if covered bounds s w h m x y then 0
        else pix (y * (w * n) + x * n + c) := by
  simp only [burnMatch]
  rw [burnRect_apply]
  refine if_congr ?_ rfl rfl
  constructor
  · rintro ⟨y', hy', x', hx', c', hc', he⟩
    rw [List.mem_range'_1] at hy' hx'
    rw [List.mem_range] at hc'
    have hxhi : (min (w : Int) ⌈(m.x1 - bounds.x0) * s⌉).toNat ≤ w :=
      Int.toNat_le.mpr (min_le_left _ _)
    have hyhi : (min (h : Int) ⌈(m.y1 - bounds.y0) * s⌉).toNat ≤ h :=
      Int.toNat_le.mpr (min_le_left _ _)
    have hx'w : x' < w := by omega
    obtain ⟨rfl, rfl, rfl⟩ :=
      pixel_index_decomp w n y x c y' x' c' hx hx'w hc hc' he
    constructor
    · constructor
      · exact Int.toNat_le.mp (by omega)
      · exact Int.lt_toNat.mp (by omega)
    · constructor
      · exact Int.toNat_le.mp (by omega)
      · exact Int.lt_toNat.mp (by omega)
  · rintro ⟨⟨hx0, hx1i⟩, hy0, hy1i⟩
    have hxlo : (max 0 ⌊(m.x0 - bounds.x0) * s⌋).toNat ≤ x :=
      Int.toNat_le.mpr hx0
    have hxhi : x < (min (w : Int) ⌈(m.x1 - bounds.x0) * s⌉).toNat :=
      Int.lt_toNat.mpr hx1i
    have hylo : (max 0 ⌊(m.y0 - bounds.y0) * s⌋).toNat ≤ y :=
      Int.toNat_le.mpr hy0
    have hyhi : y < (min (h : Int) ⌈(m.y1 - bounds.y0) * s⌉).toNat :=
      Int.lt_toNat.mpr hy1i
    refine ⟨y, ?_, x, ?_, c, ?_, rfl⟩
    · rw [List.mem_range'_1]
      omega
    · rw [List.mem_range'_1]
      omega
    · rw [List.mem_range]
      exact hc

/-- Later burns never resurrect a zeroed byte. -/
theorem burnMatches_preserve_zero (bounds : Bbox) (s : ℚ)
    (w h stride n : Nat) :
    ∀ (ms : List Bbox) (pix : Nat → Nat) (j : Nat), pix j = 0 →
      burnMatches bounds s w h stride n ms pix j = 0 := by
  intro ms
  induction ms with
  | nil => intro pix j hj; exact hj
  | cons m rest ih =>
    intro pix j hj
    have hstep : burnMatches bounds s w h stride n (m :: rest) pix
        = burnMatches bounds s w h stride n rest
            (burnMatch bounds s w h stride n m pix) := rfl
    rw [hstep]
    apply ih
    rcases burnMatch_cases bounds s w h stride n m pix j with hcase | hcase
    · rw [hcase]
    · rw [hcase]
      exact hj

/-- C1: after applying the redaction burn loop to a page, the byte of
every channel of every pixel covered by at least one match's rendered
rectangle (low edges floored, high edges ceiled, clamped to the image)
is zero, and every pixel covered by no match keeps its rendered
value. -/
theorem redaction_burn_spec (bounds : Bbox) (s : ℚ) (w h n : Nat)
    (ms : List Bbox) (pix : Nat → Nat) (x y c : Nat)
    (hx : x < w) (hy : y < h) (hc : c < n) :
    ((∃ m ∈ ms, covered bounds s w h m x y) →
      burnMatches bounds s w h (w * n) n ms pix
        (y * (w * n) + x * n + c) = 0)
    ∧ ((∀ m ∈ ms, ¬ covered bounds s w h m x y) →
      burnMatches bounds s w h (w * n) n ms pix
        (y * (w * n) + x * n + c)
        = pix (y * (w * n) + x * n + c)) := by
  induction ms generalizing pix with
  | nil =>
    constructor
    · rintro ⟨m, hm, _⟩
      cases hm
    · intro _
      rfl
  | cons m0 rest ih =>
    have hstep : burnMatches bounds s w h (w * n) n (m0 :: rest) pix
        = burnMatches bounds s w h (w * n) n rest
            (burnMatch bounds s w h (w * n) n m0 pix) := rfl
    constructor
    · rintro ⟨m, hm, hcov⟩
      rw [hstep]
      rcases List.mem_cons.mp hm with rfl | hm2
      · have h0 : burnMatch bounds s w h (w * n) n m pix
            (y * (w * n) + x * n + c) = 0 := by
          rw [burnMatch_apply bounds s w h n m pix x y c hx hy hc]
          rw [if_pos hcov]
        exact burnMatches_preserve_zero bounds s w h (w * n) n rest _ _ h0
      · exact (ih _).1 ⟨m, hm2, hcov⟩
    · intro hall
      rw [hstep]
      rw [(ih _).2 (fun m hm => hall m (List.mem_cons_of_mem _ hm))]
      rw [burnMatch_apply bounds s w h n m0 pix x y c hx hy hc]
      rw [if_neg (hall m0 (List.mem_cons_self _ _))]

/-- Witness for C1: a 4 × 4 three-component image with one match whose
rendered rectangle covers pixel (1, 1); its byte goes to zero while an
uncovered pixel keeps its value. -/
theorem redaction_burn_spec_witness :
    burnMatches ⟨0, 0, 4, 4⟩ 1 4 4 (4 * 3) 3 [⟨1, 1, 2, 2⟩] (fun _ => 7)
      (1 * (4 * 3) + 1 * 3 + 0) = 0 :=
  (redaction_burn_spec ⟨0, 0, 4, 4⟩ 1 4 4 3 [⟨1, 1, 2, 2⟩] (fun _ => 7)
    1 1 0 (by norm_num) (by norm_num) (by norm_num)).1
    ⟨⟨1, 1, 2, 2⟩, by simp, by
      constructor
      · constructor
        · show max 0 ⌊((1:ℚ) - 0) * 1⌋ ≤ (1 : Int)
          norm_num
        · show (1 : Int) < min ((4:Nat) : Int) ⌈((2:ℚ) - 0) * 1⌉
          norm_num
      · constructor
        · show max 0 ⌊((1:ℚ) - 0) * 1⌋ ≤ (1 : Int)
          norm_num
        · show (1 : Int) < min ((4:Nat) : Int) ⌈((2:ℚ) - 0) * 1⌉
          norm_num⟩

/-! ## C10: every produced bbox is normalized -/

/-- estimateBbox preserves normalization: the uniform character width
is non-negative for a normalized block, so the interpolated X range is
ordered, and the Y extent is the block's. -/
theorem estimateBbox_normalized (block : Block) (i len : Nat)
    (hb : block.bbox.Normalized) : (estimateBbox block i len).Normalized := by
  unfold estimateBbox
  by_cases h0 : block.text.length = 0
  · rw [if_pos h0]
    exact hb
  · rw [if_neg h0]
    constructor
    · apply add_le_add_left
      apply mul_le_mul_of_nonneg_right
      · have : (0 : ℚ) ≤ (len : ℚ) := Nat.cast_nonneg _
        linarith
      · apply div_nonneg
        · have := hb.1
          linarith
        · exact Nat.cast_nonneg _
    · exact hb.2

/-- quadToBbox yields a normalized rectangle: min of the corner
coordinates is at most the max. -/
theorem quadToBbox_normalized (q : Quad) : (quadToBbox q).Normalized := by
  constructor
  · exact le_trans
      (le_trans (min_le_left _ _) (le_trans (min_le_left _ _) (min_le_left _ _)))
      (le_trans (le_trans (le_max_left _ _) (le_max_left _ _)) (le_max_left _ _))
  · exact le_trans
      (le_trans (min_le_left _ _) (le_trans (min_le_left _ _) (min_le_left _ _)))
      (le_trans (le_trans (le_max_left _ _) (le_max_left _ _)) (le_max_left _ _))

/-- The manual bbox built from two corners is normalized by min/max. -/
theorem manualBbox_normalized (tl br : ℚ × ℚ) : (manualBbox tl br).Normalized :=
  ⟨le_trans (min_le_left _ _) (le_max_left _ _),
   le_trans (min_le_left _ _) (le_max_left _ _)⟩

/-- Positions of a matching key in one word's run of charToWord
entries. -/
theorem posOf_run (k k0 : Nat) (w : Word) (nn : Nat) :
    posOf k ((List.range nn).map (fun i => some ⟨k0, w, i⟩)) =
      if k0 = k then List.range nn else [] := by
  unfold posOf
  rw [List.filterMap_map]
  by_cases h : k0 = k
  · rw [if_pos h]
    have hfn : ((fun e =>
        match e with
        | some r => if r.key = k then some r.pos else none
        | none => none) ∘ fun i => (some ⟨k0, w, i⟩ : Option CharWordRef))
        = fun i => some i := by
      funext i
      simp [Function.comp, h]
    rw [hfn]
    exact List.filterMap_some _
  · rw [if_neg h]
    simp [Function.comp, h]

/-- posOf distributes over append. -/
theorem posOf_append (k : Nat) (l1 l2 : List (Option CharWordRef)) :
    posOf k (l1 ++ l2) = posOf k l1 ++ posOf k l2 :=
  List.filterMap_append _ _ _

/-- posOf on a key-matching entry. -/
theorem posOf_cons_some_eq (r : CharWordRef) (k : Nat)
    (l : List (Option CharWordRef)) (hk : r.key = k) :
    posOf k (some r :: l) = r.pos :: posOf k l := by
  simp [posOf, hk]

/-- posOf on a key-mismatching entry. -/
theorem posOf_cons_some_ne (r : CharWordRef) (k : Nat)
    (l : List (Option CharWordRef)) (hk : ¬ r.key = k) :
    posOf k (some r :: l) = posOf k l := by
  simp [posOf, hk]

/-- charToWord only records keys at or above the running word index. -/
theorem posOf_ctwAux_lt :
    ∀ (ws : List Word) (text : List Char) (cp k0 k : Nat), k < k0 →
      posOf k (ctwAux text cp k0 ws) = [] := by
  intro ws
  induction ws with
  | nil => intro text cp k0 k hk; rfl
  | cons w rest ih =>
    intro text cp k0 k hk
    simp only [ctwAux]
    by_cases hsp : text.get? (cp + w.text.length) = some spaceChar
    · rw [if_pos hsp]
      rw [posOf_append, posOf_append, posOf_run, if_neg (by omega),
        ih text (cp + w.text.length + 1) (k0 + 1) k (by omega)]
      rfl
    · rw [if_neg hsp]
      rw [posOf_append, posOf_run, if_neg (by omega),
        ih text (cp + w.text.length) (k0 + 1) k (by omega)]
      rfl

/-- Within charToWord the positions of any fixed word key are strictly
increasing in array order. -/
theorem posOf_ctwAux_pairwise :
    ∀ (ws : List Word) (text : List Char) (cp k0 k : Nat),
      List.Pairwise (· < ·) (posOf k (ctwAux text cp k0 ws)) := by
  intro ws
  induction ws with
  | nil => intro text cp k0 k; exact List.Pairwise.nil
  | cons w rest ih =>
    intro text cp k0 k
    simp only [ctwAux]
    by_cases hsp : text.get? (cp + w.text.length) = some spaceChar
    · rw [if_pos hsp, posOf_append, posOf_append, posOf_run]
      have hnil : posOf k [(none : Option CharWordRef)] = [] := rfl
      rw [hnil]
      by_cases hk : k0 = k
      · rw [if_pos hk]
        rw [posOf_ctwAux_lt rest text (cp + w.text.length + 1) (k0 + 1) k
          (by omega)]
        simp [List.pairwise_lt_range]
      · rw [if_neg hk]
        simp only [List.nil_append]
        exact ih text (cp + w.text.length + 1) (k0 + 1) k
    · rw [if_neg hsp, posOf_append, posOf_run]
      by_cases hk : k0 = k
      · rw [if_pos hk]
        rw [posOf_ctwAux_lt rest text (cp + w.text.length) (k0 + 1) k
          (by omega)]
        simp [List.pairwise_lt_range]
      · rw [if_neg hk]
        simp only [List.nil_append]
        exact ih text (cp + w.text.length) (k0 + 1) k

/-- The match's slice of charToWord inherits the strictly increasing
positions per key. -/
theorem posOf_slice_pairwise (block : Block) (a b k : Nat) :
    List.Pairwise (· < ·)
      (posOf k (((charToWord block).drop a).take b)) := by
  have hsub : (((charToWord block).drop a).take b).Sublist (charToWord block) :=
    (List.take_sublist _ _).trans (List.drop_sublist _ _)
  have hsub2 := hsub.filterMap (fun e =>
    match e with
    | some r => if r.key = k then some r.pos else none
    | none => none)
  exact List.Pairwise.sublist hsub2 (posOf_ctwAux_pairwise block.words block.text 0 0 k)

/-- Every word recorded in charToWord is one of the block's words. -/
theorem ctwAux_word_mem :
    ∀ (ws : List Word) (text : List Char) (cp k0 : Nat) (r : CharWordRef),
      some r ∈ ctwAux text cp k0 ws → r.word ∈ ws := by
  intro ws
  induction ws with
  | nil => intro text cp k0 r h; cases h
  | cons w rest ih =>
    intro text cp k0 r h
    simp only [ctwAux] at h
    by_cases hsp : text.get? (cp + w.text.length) = some spaceChar
    · rw [if_pos hsp] at h
      rcases List.mem_append.mp h with h12 | h3
      · rcases List.mem_append.mp h12 with h1 | h2
        · rw [List.mem_map] at h1
          obtain ⟨i, _, hi⟩ := h1
          rw [Option.some.injEq] at hi
          subst hi
          exact List.mem_cons_self _ _
        · simp at h2
      · exact List.mem_cons_of_mem _ (ih text _ _ r h3)
    · rw [if_neg hsp] at h
      rcases List.mem_append.mp h with h1 | h3
      · rw [List.mem_map] at h1
        obtain ⟨i, _, hi⟩ := h1
        rw [Option.some.injEq] at hi
        subst hi
        exact List.mem_cons_self _ _
      · exact List.mem_cons_of_mem _ (ih text _ _ r h3)

/-- Membership in the wordRanges map after one update: an untouched
entry, the freshly inserted entry, or an existing entry with its end
position overwritten. -/
theorem mem_updateRange :
    ∀ (m : List WordRange) (k : Nat) (w : Word) (p : Nat) (r : WordRange),
      r ∈ updateRange m k w p →
        r ∈ m ∨ r = ⟨k, w, p, p⟩
        ∨ ∃ r0 ∈ m, r0.key = k ∧ r = { r0 with endPos := p } := by
  intro m
  induction m with
  | nil =>
    intro k w p r h
    simp only [updateRange, List.mem_singleton] at h
    exact Or.inr (Or.inl h)
  | cons en rest ih =>
    intro k w p r h
    simp only [updateRange] at h
    by_cases hk : en.key = k
    · rw [if_pos hk] at h
      rcases List.mem_cons.mp h with rfl | h2
      · exact Or.inr (Or.inr ⟨en, List.mem_cons_self _ _, hk, rfl⟩)
      · exact Or.inl (List.mem_cons_of_mem _ h2)
    · rw [if_neg hk] at h
      rcases List.mem_cons.mp h with rfl | h2
      · exact Or.inl (List.mem_cons_self _ _)
      · rcases ih k w p r h2 with h3 | h3 | ⟨r0, hr0, hr0k, hr0e⟩
        · exact Or.inl (List.mem_cons_of_mem _ h3)
        · exact Or.inr (Or.inl h3)
        · exact Or.inr (Or.inr ⟨r0, List.mem_cons_of_mem _ hr0, hr0k, hr0e⟩)

/-- The wordRanges fold invariant: with strictly increasing positions
per key in the remaining slice, every entry of the final map has
startPos at most endPos and a word drawn from the given word list. -/
theorem buildRanges_go (W : List Word) :
    ∀ (slice : List (Option CharWordRef)) (m : List WordRange),
      (∀ k, List.Pairwise (· < ·) (posOf k slice)) →
      (∀ r0 : CharWordRef, some r0 ∈ slice → r0.word ∈ W) →
      (∀ r ∈ m, r.startPos ≤ r.endPos ∧ r.word ∈ W
          ∧ ∀ p ∈ posOf r.key slice, r.endPos ≤ p) →
      ∀ r ∈ slice.foldl rangeStep m,
        r.startPos ≤ r.endPos ∧ r.word ∈ W := by
  intro slice
  induction slice with
  | nil =>
    intro m _ _ hm r hr
    exact ⟨(hm r hr).1, (hm r hr).2.1⟩
  | cons e rest ih =>
    intro m hpw hwd hm r hr
    rw [List.foldl_cons] at hr
    cases e with
    | none =>
      refine ih m ?_ ?_ ?_ r hr
      · intro k
        exact hpw k
      · intro r0 h0
        exact hwd r0 (List.mem_cons_of_mem _ h0)
      · intro r2 hr2
        obtain ⟨h1, h2, h3⟩ := hm r2 hr2
        exact ⟨h1, h2, fun p hp => h3 p hp⟩
    | some cw =>
      refine ih (updateRange m cw.key cw.word cw.pos) ?_ ?_ ?_ r hr
      · intro k
        have hp := hpw k
        by_cases hk : cw.key = k
        · rw [posOf_cons_some_eq cw k rest hk] at hp
          exact hp.of_cons
        · rw [posOf_cons_some_ne cw k rest hk] at hp
          exact hp
      · intro r0 h0
        exact hwd r0 (List.mem_cons_of_mem _ h0)
      · intro r2 hr2
        rcases mem_updateRange m cw.key cw.word cw.pos r2 hr2 with
          h3 | h3 | ⟨r0, hr0, hr0k, hr0e⟩
        · obtain ⟨h1, h2, hbnd⟩ := hm r2 h3
          refine ⟨h1, h2, ?_⟩
          intro p hp
          apply hbnd
          by_cases hk : cw.key = r2.key
          · rw [posOf_cons_some_eq cw r2.key rest hk]
            exact List.mem_cons_of_mem _ hp
          · rw [posOf_cons_some_ne cw r2.key rest hk]
            exact hp
        · subst h3
          refine ⟨le_refl _, hwd cw (List.mem_cons_self _ _), ?_⟩
          intro p hp
          have hpair := hpw cw.key
          rw [posOf_cons_some_eq cw cw.key rest rfl] at hpair
          exact le_of_lt (List.rel_of_pairwise_cons hpair hp)
        · obtain ⟨h1, h2, hbnd⟩ := hm r0 hr0
          subst hr0e
          have hposmem : cw.pos ∈ posOf r0.key (some cw :: rest) := by
            rw [posOf_cons_some_eq cw r0.key rest hr0k.symm]
            exact List.mem_cons_self _ _
          refine ⟨le_trans h1 (hbnd cw.pos hposmem), h2, ?_⟩
          intro p hp
          have hpair := hpw r0.key
          rw [posOf_cons_some_eq cw r0.key rest hr0k.symm] at hpair
          exact le_of_lt (List.rel_of_pairwise_cons hpair hp)

/-- Every entry of the wordRanges map built for a match has an ordered
character range and a word of the block. -/
theorem buildRanges_spec (block : Block) (charIndex len : Nat) :
    ∀ r ∈ buildRanges (((charToWord block).drop charIndex).take len),
      r.startPos ≤ r.endPos ∧ r.word ∈ block.words := by
  intro r hr
  refine buildRanges_go block.words
    (((charToWord block).drop charIndex).take len) [] ?_ ?_ ?_ r hr
  · intro k
    exact posOf_slice_pairwise block charIndex len k
  · intro r0 h0
    have hsub : (((charToWord block).drop charIndex).take len).Sublist
        (charToWord block) :=
      (List.take_sublist _ _).trans (List.drop_sublist _ _)
    exact ctwAux_word_mem block.words block.text 0 0 r0 (hsub.mem h0)
  · intro r2 hr2
    cases hr2

/-- The X contribution of a wordRanges entry is ordered for a
normalized word with an ordered character range. -/
theorem rangeBboxX_le (r : WordRange) (hn : r.word.bbox.Normalized)
    (hse : r.startPos ≤ r.endPos) :
    (rangeBboxX r).1 ≤ (rangeBboxX r).2 := by
  simp only [rangeBboxX]
  split_ifs with hfull
  · exact hn.1
  · show r.word.bbox.x0 + (r.startPos : ℚ)
        * ((r.word.bbox.x1 - r.word.bbox.x0) / (r.word.text.length : ℚ))
      ≤ r.word.bbox.x0 + ((r.endPos : ℚ) + 1)
        * ((r.word.bbox.x1 - r.word.bbox.x0) / (r.word.text.length : ℚ))
    apply add_le_add_left
    apply mul_le_mul_of_nonneg_right
    · have hcast : (r.startPos : ℚ) ≤ (r.endPos : ℚ) := Nat.cast_le.mpr hse
      linarith
    · apply div_nonneg
      · have := hn.1
        linarith
      · exact Nat.cast_nonneg _

/-- The min/max accumulation yields a normalized box whenever every
entry contributes a normalized extent. -/
theorem accumRanges_normalized :
    ∀ (rs : List WordRange) (acc : Option Bbox),
      (∀ b0, acc = some b0 → b0.Normalized) →
      (∀ r ∈ rs, r.word.bbox.Normalized ∧ r.startPos ≤ r.endPos) →
      ∀ b, rs.foldl accumStep acc = some b → b.Normalized := by
  intro rs
  induction rs with
  | nil =>
    intro acc hacc _ b hb
    exact hacc b hb
  | cons r0 rest ih =>
    intro acc hacc hall b hb
    rw [List.foldl_cons] at hb
    refine ih (accumStep acc r0) ?_ ?_ b hb
    · intro b0 hb0
      obtain ⟨hwn, hse⟩ := hall r0 (List.mem_cons_self _ _)
      have hx := rangeBboxX_le r0 hwn hse
      cases hacc2 : acc with
      | none =>
        rw [hacc2] at hb0
        simp only [accumStep, Option.some.injEq] at hb0
        rw [← hb0]
        exact ⟨hx, hwn.2⟩
      | some bacc =>
        rw [hacc2] at hb0
        simp only [accumStep, Option.some.injEq] at hb0
        have hbn := hacc bacc hacc2
        rw [← hb0]
        constructor
        · exact le_trans (min_le_right _ _) (le_trans hx (le_max_right _ _))
        · exact le_trans (min_le_left _ _) (le_trans hbn.2 (le_max_left _ _))
    · intro r hrmem
      exact hall r (List.mem_cons_of_mem _ hrmem)

/-- findMatchBbox preserves normalization on every path: word-level
accumulation, empty word set, and whole-block estimation. -/
theorem findMatchBbox_normalized (block : Block) (matchText : List Char)
    (charIndex : Nat) (hb : block.bbox.Normalized)
    (hw : ∀ w ∈ block.words, w.bbox.Normalized) :
    (findMatchBbox block matchText charIndex).Normalized := by
  unfold findMatchBbox
  by_cases hempty : block.words.isEmpty
  · rw [if_pos hempty]
    exact estimateBbox_normalized block charIndex matchText.length hb
  · rw [if_neg hempty]
    cases hacc : accumRanges (buildRanges
        (((charToWord block).drop charIndex).take matchText.length)) with
    | none =>
      exact estimateBbox_normalized block charIndex matchText.length hb
    | some bb =>
      show bb.Normalized
      refine accumRanges_normalized _ none (by intro b0 h0; cases h0) ?_ bb hacc
      intro r hr
      obtain ⟨hse, hmem⟩ := buildRanges_spec block charIndex matchText.length r hr
      exact ⟨hw r.word hmem, hse⟩

/-- C10: under the TextBlock invariant (normalized block and word
boxes), every bbox a match can be appended with is normalized: the
estimated box, the quad-derived box, the word-interpolated box and the
manual box. -/
theorem match_bbox_normalized (block : Block) (q : Quad)
    (charIndex charLength : Nat) (matchText : List Char) (tl br : ℚ × ℚ)
    (hb : block.bbox.Normalized)
    (hw : ∀ w ∈ block.words, w.bbox.Normalized) :
    (estimateBbox block charIndex charLength).Normalized
    ∧ (quadToBbox q).Normalized
    ∧ (findMatchBbox block matchText charIndex).Normalized
    ∧ (manualBbox tl br).Normalized :=
  ⟨estimateBbox_normalized block charIndex charLength hb,
   quadToBbox_normalized q,
   findMatchBbox_normalized block matchText charIndex hb hw,
   manualBbox_normalized tl br⟩

/-- Witness for C10 on a concrete two-word OCR block, a quad, and a
manual corner pair. -/
theorem match_bbox_normalized_witness :
    (estimateBbox ⟨"ab cd".data, ⟨0, 0, 10, 2⟩,
        [⟨"ab".data, ⟨0, 0, 4, 2⟩⟩, ⟨"cd".data, ⟨5, 0, 9, 2⟩⟩]⟩ 1 2).Normalized
    ∧ (quadToBbox ⟨0, 0, 3, 0, 3, 1, 0, 1⟩).Normalized
    ∧ (findMatchBbox ⟨"ab cd".data, ⟨0, 0, 10, 2⟩,
        [⟨"ab".data, ⟨0, 0, 4, 2⟩⟩, ⟨"cd".data, ⟨5, 0, 9, 2⟩⟩]⟩
        "b c".data 1).Normalized
    ∧ (manualBbox (3, 4) (1, 2)).Normalized :=
  match_bbox_normalized
    ⟨"ab cd".data, ⟨0, 0, 10, 2⟩,
      [⟨"ab".data, ⟨0, 0, 4, 2⟩⟩, ⟨"cd".data, ⟨5, 0, 9, 2⟩⟩]⟩
    ⟨0, 0, 3, 0, 3, 1, 0, 1⟩ 1 2 "b c".data (3, 4) (1, 2)
    (by constructor <;> norm_num)
    (by
      intro w hwm
      rcases List.mem_cons.mp hwm with rfl | hwm2
      · constructor <;> norm_num
      · rcases List.mem_cons.mp hwm2 with rfl | hwm3
        · constructor <;> norm_num
        · cases hwm3)
